import Mathlib

/-!
Verification of the Data Redundancy Removal System
(src/Data_Redundancy_Removal_System.py).

The program is a command-line REPL over a single SQLite table
`data(id, value, value_norm UNIQUE, created_at)`.  We embed it shallowly:

* strings are Lean `String`s (lists of characters under the hood); the
  Python whitespace set and ASCII lowercasing are modelled explicitly;
* the SQLite table is a `DB`: a list of rows in ascending-`id` order
  together with the AUTOINCREMENT counter;
* each Python function (`normalize`, `init_db`, `classify`,
  `insert_unique`, `show_data`, the `main` loop) becomes a pure Lean
  function; printing is modelled by returning a message value;
* `sqlite3.IntegrityError` on INSERT is modelled by `sqlInsert`
  returning `none` exactly when the UNIQUE constraint on `value_norm`
  is violated.
-/

namespace DRRS

/-- Python's whitespace set, as used by `str.split()` and `str.strip()`:
true exactly on the Unicode whitespace code points. -/
def pyIsSpace (c : Char) : Bool :=
  decide ((9 ≤ c.toNat ∧ c.toNat ≤ 13) ∨ c.toNat = 32 ∨ (28 ≤ c.toNat ∧ c.toNat ≤ 31) ∨
    c.toNat = 133 ∨ c.toNat = 160 ∨ c.toNat = 5760 ∨ (8192 ≤ c.toNat ∧ c.toNat ≤ 8202) ∨
    c.toNat = 8232 ∨ c.toNat = 8233 ∨ c.toNat = 8239 ∨ c.toNat = 8287 ∨ c.toNat = 12288)

/-- Python's `str.lower()` restricted to the ASCII letters it affects:
maps each of A..Z to its lowercase pair and fixes every other character. -/
def pyToLower (c : Char) : Char :=
  if 65 ≤ c.toNat ∧ c.toNat ≤ 90 then Char.ofNat (c.toNat + 32) else c

/-- Lowercase every character of a character list. -/
def lowerL (l : List Char) : List Char := l.map pyToLower

/-- Python's `str.split()` with no argument on a character list: the list of
maximal nonempty runs of non-whitespace characters. -/
def split : List Char → List (List Char)
  | [] => []
  | [c] => if pyIsSpace c then [] else [[c]]
  | c :: d :: cs =>
    if pyIsSpace c then split (d :: cs)
    else if pyIsSpace d then [c] :: split (d :: cs)
    else
      match split (d :: cs) with
      | [] => [[c]]  -- unreachable: d is not whitespace, so at least one word exists
      | w :: ws => (c :: w) :: ws

/-- Python's `" ".join(ws)` on character lists: concatenate the pieces with a
single space between consecutive pieces. -/
def joinSp : List (List Char) → List Char
  | [] => []
  | [w] => w
  | w :: ws => w ++ ' ' :: joinSp ws

/-- Remove trailing whitespace from a character list. -/
def stripTrail (l : List Char) : List Char :=
  (l.reverse.dropWhile pyIsSpace).reverse

/-- Python's `str.strip()` with no argument: remove leading and trailing
whitespace. -/
def stripL (l : List Char) : List Char :=
  stripTrail (l.dropWhile pyIsSpace)

/-- `normalize` from the source, on character lists:
`" ".join(value.split()).lower()`. -/
def normalizeL (l : List Char) : List Char :=
  lowerL (joinSp (split l))

/-- `normalize(value)` from the source: trim and collapse whitespace, then
lowercase, producing the canonical duplicate-comparison key. -/
def normalize (s : String) : String := ⟨normalizeL s.data⟩

/-- Python's `str.strip()` on strings. -/
def pyStrip (s : String) : String := ⟨stripL s.data⟩

/-- Python's `str.lower()` on strings (ASCII letters). -/
def pyLower (s : String) : String := ⟨lowerL s.data⟩

/-! The specification's description of `normalize`: collapse every whitespace
run to a single space, strip leading/trailing space, lowercase. -/

/-- Collapse each maximal whitespace run to a single space character. -/
def collapseRuns : List Char → List Char
  | [] => []
  | [c] => if pyIsSpace c then [' '] else [c]
  | c :: d :: cs =>
    if pyIsSpace c && pyIsSpace d then collapseRuns (d :: cs)
    else (if pyIsSpace c then ' ' else c) :: collapseRuns (d :: cs)

/-- The spec's normalization, word for word: collapse whitespace runs to
single spaces, strip leading/trailing space, lowercase all characters. -/
def specNormalizeL (l : List Char) : List Char :=
  lowerL (stripL (collapseRuns l))

/-- The spec's normalization on strings. -/
def specNormalize (s : String) : String := ⟨specNormalizeL s.data⟩

/-- One row of the `data` table:
`id INTEGER PRIMARY KEY AUTOINCREMENT, value TEXT, value_norm TEXT UNIQUE,
created_at TEXT`. -/
structure Entry where
  id : Nat
  value : String
  value_norm : String
  created_at : String
deriving DecidableEq, Repr

/-- The persistent store: the rows of the `data` table in ascending-`id`
order, plus the AUTOINCREMENT counter (the id the next insert receives). -/
structure DB where
  nextId : Nat
  rows : List Entry
deriving DecidableEq, Repr

/-- A freshly created `data` table: no rows, AUTOINCREMENT starting at 1. -/
def emptyDB : DB := ⟨1, []⟩

/-- `init_db(conn, reset)`: with `reset` the table is dropped and recreated
(emptying it and resetting AUTOINCREMENT); otherwise `CREATE TABLE IF NOT
EXISTS` leaves an existing table untouched. -/
def init_db (db : DB) (reset : Bool) : DB :=
  if reset then emptyDB else db

/-- The existence query
`SELECT 1 FROM data WHERE value_norm = ? LIMIT 1` / `fetchone() is not None`. -/
def existsNorm (db : DB) (vn : String) : Bool :=
  db.rows.any (fun e => e.value_norm == vn)

/-- `classify(conn, raw_value)`: returns one of the strings
`"false_positive"` (the spec's `invalid`), `"redundant"` (`duplicate`),
`"unique"` (`novel`).  `raw_value` is `Option String` to model Python's
`None` (`raw_value is None`).  Read-only by construction: it returns only a
string and no store. -/
def classify (db : DB) (raw : Option String) : String :=
  match raw with
  | none => "false_positive"
  | some s =>
    let v := pyStrip s
    if v = "" then "false_positive"
    else if existsNorm db (normalize v) then "redundant"
    else "unique"

/-- The `INSERT INTO data (value, value_norm, created_at) VALUES (?, ?, ?)`
statement: `none` models `sqlite3.IntegrityError` (the UNIQUE constraint on
`value_norm` is violated); otherwise the row is appended with the
AUTOINCREMENT id. -/
def sqlInsert (db : DB) (v vn now : String) : Option DB :=
  if existsNorm db vn then none
  else some ⟨db.nextId + 1, db.rows ++ [⟨db.nextId, v, vn, now⟩]⟩

/-- The status line printed by `insert_unique`: the false-positive notice,
the redundant notice (echoing the raw value), or the insertion confirmation
(echoing the stripped value). -/
inductive Msg where
  | falsePositive : Msg
  | redundant : Option String → Msg
  | inserted : String → Msg
deriving DecidableEq, Repr

/-- `insert_unique(conn, raw_value)` with the store split into the state
`dbCheck` seen by the `classify` call and the state `dbIns` seen by the
INSERT statement.  Sequentially the two coincide (`insert_unique` below);
letting them differ models an external writer committing between the
existence check and the INSERT, which is exactly the race the
`except sqlite3.IntegrityError` branch guards against.  Returns the store
after the call and the printed status line. -/
def insert_unique_at (dbCheck dbIns : DB) (raw : Option String) (now : String) :
    DB × Msg :=
  if classify dbCheck raw = "false_positive" then (dbIns, Msg.falsePositive)
  else if classify dbCheck raw = "redundant" then (dbIns, Msg.redundant raw)
  else
    match raw with
    | none => (dbIns, Msg.falsePositive)  -- unreachable: classify _ none = "false_positive"
    | some s =>
      let v := pyStrip s
      match sqlInsert dbIns v (normalize v) now with
      | some db2 => (db2, Msg.inserted v)
      | none => (dbIns, Msg.redundant (some s))

/-- `insert_unique(conn, raw_value)` as executed single-threadedly. -/
def insert_unique (db : DB) (raw : Option String) (now : String) : DB × Msg :=
  insert_unique_at db db raw now

/-- What `show_data` prints: the explicit empty-database notice, or the
list of `(id, value, created_at)` triples from
`SELECT id, value, created_at FROM data ORDER BY id`. -/
inductive ShowMsg where
  | emptyNotice : ShowMsg
  | entries : List (Nat × String × String) → ShowMsg
deriving DecidableEq, Repr

/-- `show_data(conn)`: rows are kept in ascending-`id` order, so the
`ORDER BY id` query returns them as stored. -/
def show_data (db : DB) : ShowMsg :=
  match db.rows.map (fun e => (e.id, e.value, e.created_at)) with
  | [] => ShowMsg.emptyNotice
  | rs => ShowMsg.entries rs

/-- How the `main` loop ends: `normalExit` is the `break` on the `exit`
command (falling through to `conn.close()` and exit code 0); `eofCrash` is
`input()` raising `EOFError` at end of input, which no handler catches. -/
inductive ExitStatus where
  | normalExit : ExitStatus
  | eofCrash : ExitStatus
deriving DecidableEq, Repr

/-- The `while True` loop of `main`: consumes stdin lines (`inputs`) and a
supply of `datetime.utcnow()` strings (`nows`), returning the final store
and how the loop ended.  Command keywords are matched on the stripped,
lowercased line; any other line is handed to `insert_unique` (the loop
passes the already-stripped `user_input`). -/
def runLoop : List String → List String → DB → DB × ExitStatus
  | [], _, db => (db, ExitStatus.eofCrash)
  | line :: rest, nows, db =>
    let u := pyStrip line
    if pyLower u = "exit" then (db, ExitStatus.normalExit)
    else if pyLower u = "show" then runLoop rest nows db
    else if pyLower u = "reset" then runLoop rest nows (init_db db true)
    else runLoop rest nows.tail (insert_unique db (some u) (nows.headD "")).1

/-- Collapsing whitespace runs, on strings (used to state that two strings
differing only in whitespace run lengths normalize identically). -/
def collapseRunsS (s : String) : String := ⟨collapseRuns s.data⟩

/-- The store states reachable through the program's operations: the fresh
table, `insert_unique` on any input and timestamp, the `reset` command
(`init_db` with `reset=True`), and a redundant `init_db` with
`reset=False`. -/
inductive Reachable : DB → Prop where
  | empty : Reachable emptyDB
  | insert (db : DB) (raw : Option String) (now : String) :
      Reachable db → Reachable (insert_unique db raw now).1
  | reset (db : DB) : Reachable db → Reachable (init_db db true)
  | reinit (db : DB) : Reachable db → Reachable (init_db db false)

/-- The well-formedness invariant of the store: normalized keys are unique,
ids are strictly increasing and below the AUTOINCREMENT counter, and each
row's `value_norm` is the normalization of its `value`, which is itself
stripped. -/
def WF (db : DB) : Prop :=
  (db.rows.map Entry.value_norm).Nodup ∧
  List.Chain' (fun a b => a < b) (db.rows.map Entry.id) ∧
  (∀ e ∈ db.rows, e.id < db.nextId) ∧
  (∀ e ∈ db.rows, e.value_norm = normalize e.value ∧ pyStrip e.value = e.value)

example : normalize ("  Hello   WORLD ") = ("hello world") := by decide
example : normalize ("") = ("") := by decide
example : pyStrip ("  a b  ") = ("a b") := by decide

example :
    (insert_unique emptyDB (some ("  Hello   World ")) ("t1")).2 =
      Msg.inserted ("Hello   World") := by decide

example :
    (insert_unique (insert_unique emptyDB (some ("Hello World")) ("t1")).1
      (some (" hello   WORLD")) ("t2")).2 = Msg.redundant (some (" hello   WORLD")) := by
  decide

/-! Character-level lemmas about the whitespace predicate and lowercasing. -/

theorem toNat_ofNat_of_lt {n : Nat} (h : n < 55296) : (Char.ofNat n).toNat = n := by
  have hv : n.isValidChar := Or.inl h
  unfold Char.ofNat
  rw [dif_pos hv]
  simp [Char.ofNatAux, Char.toNat, UInt32.toNat]

theorem toNat_pyToLower (c : Char) :
    (pyToLower c).toNat = if 65 ≤ c.toNat ∧ c.toNat ≤ 90 then c.toNat + 32 else c.toNat := by
  unfold pyToLower
  split
  case isTrue h => exact toNat_ofNat_of_lt (by omega)
  case isFalse h => rfl

theorem pyIsSpace_eq_of_toNat {c d : Char} (h : c.toNat = d.toNat) :
    pyIsSpace c = pyIsSpace d := by
  simp only [pyIsSpace, h]

theorem pyIsSpace_pyToLower (c : Char) : pyIsSpace (pyToLower c) = pyIsSpace c := by
  by_cases h : 65 ≤ c.toNat ∧ c.toNat ≤ 90
  · have h1 : (pyToLower c).toNat = c.toNat + 32 := by rw [toNat_pyToLower, if_pos h]
    have h2 : pyIsSpace (pyToLower c) = false := by
      simp only [pyIsSpace, decide_eq_false_iff_not, h1]
      omega
    have h3 : pyIsSpace c = false := by
      simp only [pyIsSpace, decide_eq_false_iff_not]
      omega
    rw [h2, h3]
  · have h1 : (pyToLower c).toNat = c.toNat := by rw [toNat_pyToLower, if_neg h]
    exact pyIsSpace_eq_of_toNat h1

theorem pyToLower_fix {c : Char} (h : ¬(65 ≤ c.toNat ∧ c.toNat ≤ 90)) :
    pyToLower c = c := by
  unfold pyToLower
  rw [if_neg h]

theorem pyToLower_idem (c : Char) : pyToLower (pyToLower c) = pyToLower c := by
  by_cases h : 65 ≤ c.toNat ∧ c.toNat ≤ 90
  · have h1 : (pyToLower c).toNat = c.toNat + 32 := by rw [toNat_pyToLower, if_pos h]
    exact pyToLower_fix (by omega)
  · rw [pyToLower_fix h, pyToLower_fix h]

theorem pyToLower_space : pyToLower ' ' = ' ' := by decide

theorem pyIsSpace_space : pyIsSpace ' ' = true := by decide

theorem lowerL_idem (l : List Char) : lowerL (lowerL l) = lowerL l := by
  simp [lowerL, List.map_map, Function.comp, pyToLower_idem]

theorem lowerL_append (a b : List Char) : lowerL (a ++ b) = lowerL a ++ lowerL b := by
  simp [lowerL]

/-! Generic list helpers. -/

theorem list_strong_ind {α : Type} {P : List α → Prop}
    (step : ∀ l, (∀ m : List α, m.length < l.length → P m) → P l) : ∀ l, P l := by
  have key : ∀ n (l : List α), l.length ≤ n → P l := by
    intro n
    induction n with
    | zero =>
      intro l hl
      apply step
      intro m hm
      omega
    | succ n ih =>
      intro l hl
      apply step
      intro m hm
      apply ih
      omega
  intro l
  exact key l.length l (Nat.le_refl _)

theorem length_dropWhile_le {α : Type} (p : α → Bool) (l : List α) :
    (l.dropWhile p).length ≤ l.length := by
  induction l with
  | nil => simp
  | cons a l ih =>
    rw [List.dropWhile_cons]
    split
    · simp
      omega
    · simp

/-! The characterization of `split` by `takeWhile` and `dropWhile`. -/

theorem split_nil : split [] = [] := rfl

theorem split_cons_space {c : Char} (h : pyIsSpace c = true) (cs : List Char) :
    split (c :: cs) = split cs := by
  cases cs with
  | nil => simp [split, h]
  | cons d cs => simp [split, h]

theorem split_cons_nonspace {c : Char} (h : pyIsSpace c = false) (cs : List Char) :
    split (c :: cs) =
      (c :: cs.takeWhile (fun d => !pyIsSpace d)) ::
        split (cs.dropWhile (fun d => !pyIsSpace d)) := by
  induction cs generalizing c with
  | nil => simp [split, h]
  | cons d cs ih =>
    by_cases hd : pyIsSpace d
    · simp [split, h, hd]
    · have hd' : pyIsSpace d = false := by simp [hd]
      have hrec := ih hd'
      simp only [split, h, hd', if_neg, Bool.false_eq_true, if_false, hrec]
      simp [hd']

theorem takeWhile_all {α : Type} {p : α → Bool} {l : List α}
    (h : ∀ x ∈ l, p x = true) : l.takeWhile p = l := by
  induction l with
  | nil => rfl
  | cons a l ih =>
    rw [List.takeWhile_cons, if_pos (h a (by simp))]
    rw [ih (fun x hx => h x (by simp [hx]))]

theorem dropWhile_all {α : Type} {p : α → Bool} {l : List α}
    (h : ∀ x ∈ l, p x = true) : l.dropWhile p = [] := by
  induction l with
  | nil => rfl
  | cons a l ih =>
    rw [List.dropWhile_cons, if_pos (h a (by simp))]
    exact ih (fun x hx => h x (by simp [hx]))

/-- Every piece produced by `split` is nonempty and whitespace-free. -/
theorem split_mem : ∀ l : List Char, ∀ w ∈ split l,
    w ≠ [] ∧ ∀ c ∈ w, pyIsSpace c = false := by
  apply list_strong_ind
  intro l ih
  match l with
  | [] => intro w hw; simp [split_nil] at hw
  | c :: cs =>
    by_cases hc : pyIsSpace c
    · rw [split_cons_space hc]
      exact fun w hw => ih cs (by simp) w hw
    · have hc' : pyIsSpace c = false := by simp [hc]
      rw [split_cons_nonspace hc']
      intro w hw
      rcases List.mem_cons.1 hw with h1 | h2
      · subst h1
        refine ⟨by simp, ?_⟩
        intro d hd
        rcases List.mem_cons.1 hd with h3 | h4
        · subst h3; exact hc'
        · have := List.mem_takeWhile_imp h4
          simpa using this
      · have hlen : (cs.dropWhile (fun d => !pyIsSpace d)).length < (c :: cs).length := by
          have := length_dropWhile_le (fun d => !pyIsSpace d) cs
          simp
          omega
        exact ih _ hlen w h2

/-- `split` ignores leading whitespace. -/
theorem split_dropWhile (l : List Char) :
    split (l.dropWhile pyIsSpace) = split l := by
  induction l with
  | nil => rfl
  | cons c cs ih =>
    by_cases hc : pyIsSpace c
    · rw [List.dropWhile_cons_of_pos hc, ih, split_cons_space hc]
    · rw [List.dropWhile_cons_of_neg hc]

/-- A whitespace-only list splits to nothing. -/
theorem split_allspace {t : List Char} (h : ∀ x ∈ t, pyIsSpace x = true) :
    split t = [] := by
  induction t with
  | nil => rfl
  | cons c cs ih =>
    rw [split_cons_space (h c (by simp))]
    exact ih (fun x hx => h x (by simp [hx]))

/-- `split` ignores trailing whitespace appended to a list. -/
theorem split_append_allspace {t : List Char} (ht : ∀ x ∈ t, pyIsSpace x = true) :
    ∀ l : List Char, split (l ++ t) = split l := by
  apply list_strong_ind
  intro l ih
  match l with
  | [] => simpa [split_nil] using split_allspace ht
  | c :: cs =>
    by_cases hc : pyIsSpace c
    · rw [List.cons_append, split_cons_space hc, split_cons_space hc]
      exact ih cs (by simp)
    · have hc' : pyIsSpace c = false := by simp [hc]
      have hdt : t.dropWhile (fun d => !pyIsSpace d) = t := by
        cases t with
        | nil => rfl
        | cons x t =>
          rw [List.dropWhile_cons_of_neg]
          simp [ht x (by simp)]
      have htt : t.takeWhile (fun d => !pyIsSpace d) = [] := by
        cases t with
        | nil => rfl
        | cons x t =>
          rw [List.takeWhile_cons_of_neg]
          simp [ht x (by simp)]
      rw [List.cons_append, split_cons_nonspace hc', split_cons_nonspace hc']
      by_cases hemp : cs.dropWhile (fun d => !pyIsSpace d) = []
      · have hcs : cs.takeWhile (fun d => !pyIsSpace d) = cs := by
          have := List.takeWhile_append_dropWhile (l := cs) (p := fun d => !pyIsSpace d)
          rw [hemp, List.append_nil] at this
          exact this
        rw [List.takeWhile_append, hcs, List.dropWhile_append, hemp]
        simp only [List.length_append, List.isEmpty_nil, if_pos rfl, if_pos]
        rw [htt, hdt, List.append_nil, split_allspace ht, split_nil]
      · have hlen : (cs.dropWhile (fun d => !pyIsSpace d)).length < (c :: cs).length := by
          have := length_dropWhile_le (fun d => !pyIsSpace d) cs
          simp
          omega
        have hlt : (cs.takeWhile (fun d => !pyIsSpace d)).length ≠ cs.length := by
          intro hcon
          have hsum := List.takeWhile_append_dropWhile (l := cs) (p := fun d => !pyIsSpace d)
          have : (cs.takeWhile (fun d => !pyIsSpace d)).length +
              (cs.dropWhile (fun d => !pyIsSpace d)).length = cs.length := by
            rw [← List.length_append, hsum]
          have : (cs.dropWhile (fun d => !pyIsSpace d)).length = 0 := by omega
          exact hemp (List.eq_nil_of_length_eq_zero this)
        rw [List.takeWhile_append, if_neg hlt, List.dropWhile_append,
          if_neg (by simpa using hemp)]
        rw [ih _ hlen]

theorem stripTrail_decomp (l : List Char) :
    stripTrail l ++ (l.reverse.takeWhile pyIsSpace).reverse = l := by
  unfold stripTrail
  rw [← List.reverse_append, List.takeWhile_append_dropWhile, List.reverse_reverse]

/-- `split` ignores trailing whitespace. -/
theorem split_stripTrail (l : List Char) : split (stripTrail l) = split l := by
  have h1 : ∀ x ∈ (l.reverse.takeWhile pyIsSpace).reverse, pyIsSpace x = true := by
    intro x hx
    rw [List.mem_reverse] at hx
    exact List.mem_takeWhile_imp hx
  calc split (stripTrail l)
      = split (stripTrail l ++ (l.reverse.takeWhile pyIsSpace).reverse) :=
        (split_append_allspace h1 _).symm
    _ = split l := by rw [stripTrail_decomp]

/-- `split` is invariant under `str.strip()`. -/
theorem split_stripL (l : List Char) : split (stripL l) = split l := by
  unfold stripL
  rw [split_stripTrail, split_dropWhile]

/-- `split` commutes with lowercasing. -/
theorem split_lowerL : ∀ l : List Char, split (lowerL l) = (split l).map lowerL := by
  apply list_strong_ind
  intro l ih
  match l with
  | [] => rfl
  | c :: cs =>
    have hq : (fun d => !pyIsSpace d) ∘ pyToLower = fun d => !pyIsSpace d := by
      funext d
      simp [Function.comp, pyIsSpace_pyToLower]
    by_cases hc : pyIsSpace c
    · have hc2 : pyIsSpace (pyToLower c) = true := by rw [pyIsSpace_pyToLower]; exact hc
      rw [show lowerL (c :: cs) = pyToLower c :: lowerL cs from rfl,
        split_cons_space hc2, split_cons_space hc]
      exact ih cs (by simp)
    · have hc' : pyIsSpace c = false := by simp [hc]
      have hc2 : pyIsSpace (pyToLower c) = false := by rw [pyIsSpace_pyToLower]; exact hc'
      rw [show lowerL (c :: cs) = pyToLower c :: lowerL cs from rfl,
        split_cons_nonspace hc2, split_cons_nonspace hc']
      have htk : (lowerL cs).takeWhile (fun d => !pyIsSpace d) =
          lowerL (cs.takeWhile (fun d => !pyIsSpace d)) := by
        rw [lowerL, List.takeWhile_map, hq]
        rfl
      have hdp : (lowerL cs).dropWhile (fun d => !pyIsSpace d) =
          lowerL (cs.dropWhile (fun d => !pyIsSpace d)) := by
        rw [lowerL, List.dropWhile_map, hq]
        rfl
      have hlen : (cs.dropWhile (fun d => !pyIsSpace d)).length < (c :: cs).length := by
        have := length_dropWhile_le (fun d => !pyIsSpace d) cs
        simp
        omega
      rw [htk, hdp, ih _ hlen]
      rfl

theorem joinSp_cons₂ (w x : List Char) (ws : List (List Char)) :
    joinSp (w :: x :: ws) = w ++ ' ' :: joinSp (x :: ws) := rfl

/-- `joinSp` commutes with lowercasing (a space lowers to itself). -/
theorem joinSp_lowerL : ∀ ws : List (List Char),
    joinSp (ws.map lowerL) = lowerL (joinSp ws) := by
  intro ws
  induction ws with
  | nil => rfl
  | cons w ws ih =>
    cases ws with
    | nil => rfl
    | cons x ws =>
      rw [List.map_cons, joinSp_cons₂, List.map_cons] at *
      rw [joinSp_cons₂, ih]
      show lowerL w ++ ' ' :: lowerL (joinSp (x :: ws)) = lowerL (w ++ ' ' :: joinSp (x :: ws))
      rw [lowerL_append]
      show lowerL w ++ ' ' :: lowerL (joinSp (x :: ws)) =
        lowerL w ++ pyToLower ' ' :: lowerL (joinSp (x :: ws))
      rw [pyToLower_space]

/-- Splitting a space-joined list of nonempty whitespace-free words recovers
exactly those words. -/
theorem split_joinSp : ∀ ws : List (List Char),
    (∀ w ∈ ws, w ≠ [] ∧ ∀ c ∈ w, pyIsSpace c = false) → split (joinSp ws) = ws := by
  intro ws
  induction ws with
  | nil => intro _; rfl
  | cons w ws ih =>
    intro h
    obtain ⟨hne, hns⟩ := h w (by simp)
    obtain ⟨c, w', rfl⟩ := List.exists_cons_of_ne_nil hne
    have hc : pyIsSpace c = false := hns c (by simp)
    have hw' : ∀ x ∈ w', pyIsSpace x = false := fun x hx => hns x (by simp [hx])
    have hw'q : ∀ x ∈ w', (fun d => !pyIsSpace d) x = true := by
      intro x hx
      simp [hw' x hx]
    cases ws with
    | nil =>
      show split (c :: w') = [c :: w']
      rw [split_cons_nonspace hc, takeWhile_all hw'q, dropWhile_all hw'q, split_nil]
    | cons x ws' =>
      rw [joinSp_cons₂]
      show split (c :: (w' ++ ' ' :: joinSp (x :: ws'))) = (c :: w') :: x :: ws'
      rw [split_cons_nonspace hc]
      rw [List.takeWhile_append_of_pos hw'q, List.dropWhile_append_of_pos hw'q]
      rw [List.takeWhile_cons_of_neg (by simp [pyIsSpace_space]),
        List.dropWhile_cons_of_neg (by simp [pyIsSpace_space])]
      rw [List.append_nil, split_cons_space pyIsSpace_space]
      rw [ih (fun v hv => h v (by simp [hv]))]

/-! Lemmas about `normalizeL`. -/

theorem normalizeL_lowerL (l : List Char) : normalizeL (lowerL l) = normalizeL l := by
  unfold normalizeL
  rw [split_lowerL, joinSp_lowerL, lowerL_idem]

theorem normalizeL_idem (l : List Char) : normalizeL (normalizeL l) = normalizeL l := by
  show normalizeL (lowerL (joinSp (split l))) = normalizeL l
  rw [normalizeL_lowerL]
  unfold normalizeL
  rw [split_joinSp (split l) (split_mem l)]

theorem normalizeL_stripL (l : List Char) : normalizeL (stripL l) = normalizeL l := by
  unfold normalizeL
  rw [split_stripL]

theorem normalizeL_of_lowerL_eq {l₁ l₂ : List Char} (h : lowerL l₁ = lowerL l₂) :
    normalizeL l₁ = normalizeL l₂ := by
  rw [← normalizeL_lowerL l₁, h, normalizeL_lowerL l₂]

theorem cr_nonspace {c : Char} (h : pyIsSpace c = false) (cs : List Char) :
    collapseRuns (c :: cs) = c :: collapseRuns cs := by
  cases cs with
  | nil => simp [collapseRuns, h]
  | cons d cs => simp [collapseRuns, h]

theorem cr_space_drop {c : Char} (h : pyIsSpace c = true) (cs : List Char) :
    collapseRuns (c :: cs) = ' ' :: collapseRuns (cs.dropWhile pyIsSpace) := by
  induction cs generalizing c with
  | nil => simp [collapseRuns, h]
  | cons d cs ih =>
    by_cases hd : pyIsSpace d
    · have h1 : collapseRuns (c :: d :: cs) = collapseRuns (d :: cs) := by
        simp [collapseRuns, h, hd]
      rw [h1, ih hd, List.dropWhile_cons_of_pos hd]
    · have h1 : collapseRuns (c :: d :: cs) = ' ' :: collapseRuns (d :: cs) := by
        simp [collapseRuns, h, hd]
      rw [h1, List.dropWhile_cons_of_neg hd]

theorem cr_word_prefix {w : List Char} (hw : ∀ x ∈ w, pyIsSpace x = false)
    (r : List Char) : collapseRuns (w ++ r) = w ++ collapseRuns r := by
  induction w with
  | nil => rfl
  | cons c w ih =>
    rw [List.cons_append, cr_nonspace (hw c (by simp)),
      ih (fun x hx => hw x (by simp [hx]))]
    rfl

theorem dropWhile_head_false {α : Type} {p : α → Bool} :
    ∀ {l : List α} {d : α} {t : List α}, l.dropWhile p = d :: t → p d = false := by
  intro l
  induction l with
  | nil => intro d t h; simp at h
  | cons a l ih =>
    intro d t h
    rw [List.dropWhile_cons] at h
    by_cases ha : p a
    · rw [if_pos ha] at h
      exact ih h
    · rw [if_neg ha] at h
      cases h
      simp [ha]

/-- Collapsing whitespace runs does not change the words. -/
theorem split_collapseRuns : ∀ l : List Char, split (collapseRuns l) = split l := by
  apply list_strong_ind
  intro l ih
  match l with
  | [] => rfl
  | c :: cs =>
    by_cases hc : pyIsSpace c
    · have hlen : (cs.dropWhile pyIsSpace).length < (c :: cs).length := by
        have := length_dropWhile_le pyIsSpace cs
        simp
        omega
      rw [cr_space_drop hc, split_cons_space pyIsSpace_space, ih _ hlen,
        split_dropWhile, split_cons_space hc]
    · have hc' : pyIsSpace c = false := by simp [hc]
      have hw : ∀ x ∈ cs.takeWhile (fun d => !pyIsSpace d), pyIsSpace x = false := by
        intro x hx
        have := List.mem_takeWhile_imp hx
        simpa using this
      have hsplit : cs.takeWhile (fun d => !pyIsSpace d) ++
          cs.dropWhile (fun d => !pyIsSpace d) = cs :=
        List.takeWhile_append_dropWhile _ cs
      have hcr : collapseRuns cs = cs.takeWhile (fun d => !pyIsSpace d) ++
          collapseRuns (cs.dropWhile (fun d => !pyIsSpace d)) := by
        conv_lhs => rw [← hsplit]
        exact cr_word_prefix hw _
      have hqr : ∀ x ∈ collapseRuns (cs.dropWhile (fun d => !pyIsSpace d)),
          True := fun _ _ => trivial
      have hhead : collapseRuns (cs.dropWhile (fun d => !pyIsSpace d)) = [] ∨
          ∃ t, collapseRuns (cs.dropWhile (fun d => !pyIsSpace d)) = ' ' :: t := by
        cases hr : cs.dropWhile (fun d => !pyIsSpace d) with
        | nil => exact Or.inl rfl
        | cons d r' =>
          have hd : pyIsSpace d = true := by
            have := dropWhile_head_false hr
            simpa using this
          exact Or.inr ⟨_, cr_space_drop hd r'⟩
      have htk : (collapseRuns cs).takeWhile (fun d => !pyIsSpace d) =
          cs.takeWhile (fun d => !pyIsSpace d) := by
        rw [hcr, List.takeWhile_append_of_pos (by intro a ha; simp [hw a ha])]
        rcases hhead with h0 | ⟨t, ht⟩
        · rw [h0]
          simp
        · rw [ht, List.takeWhile_cons_of_neg (by simp [pyIsSpace_space])]
          simp
      have hdp : (collapseRuns cs).dropWhile (fun d => !pyIsSpace d) =
          collapseRuns (cs.dropWhile (fun d => !pyIsSpace d)) := by
        rw [hcr, List.dropWhile_append_of_pos (by intro a ha; simp [hw a ha])]
        rcases hhead with h0 | ⟨t, ht⟩
        · rw [h0]
          rfl
        · rw [ht, List.dropWhile_cons_of_neg (by simp [pyIsSpace_space])]
      have hlen : (cs.dropWhile (fun d => !pyIsSpace d)).length < (c :: cs).length := by
        have := length_dropWhile_le (fun d => !pyIsSpace d) cs
        simp
        omega
      rw [cr_nonspace hc', split_cons_nonspace hc', split_cons_nonspace hc',
        htk, hdp, ih _ hlen]

/-! Structure lemmas for `stripTrail` and `stripL`. -/

theorem stripTrail_cons (c : Char) (u : List Char) :
    stripTrail (c :: u) =
      if stripTrail u = [] then (if pyIsSpace c then [] else [c])
      else c :: stripTrail u := by
  unfold stripTrail
  rw [List.reverse_cons, List.dropWhile_append]
  by_cases h : (u.reverse.dropWhile pyIsSpace).isEmpty
  · rw [if_pos h]
    have h' : u.reverse.dropWhile pyIsSpace = [] := by simpa using h
    rw [if_pos (by rw [h']; rfl)]
    rw [List.dropWhile_cons]
    by_cases hc : pyIsSpace c
    · rw [if_pos hc, if_pos hc]
      rfl
    · rw [if_neg hc, if_neg hc]
      rfl
  · rw [if_neg h]
    have h' : ¬ u.reverse.dropWhile pyIsSpace = [] := by simpa using h
    rw [if_neg (by intro hcon; exact h' (by simpa using congrArg List.reverse hcon))]
    rw [List.reverse_append]
    rfl

theorem stripTrail_cons_nonspace {c : Char} (h : pyIsSpace c = false) (u : List Char) :
    stripTrail (c :: u) = c :: stripTrail u := by
  rw [stripTrail_cons]
  by_cases h0 : stripTrail u = []
  · rw [if_pos h0, h0, h]
    simp
  · rw [if_neg h0]

theorem stripTrail_word_prefix {w : List Char} (hw : ∀ x ∈ w, pyIsSpace x = false)
    (u : List Char) : stripTrail (w ++ u) = w ++ stripTrail u := by
  induction w with
  | nil => rfl
  | cons c w ih =>
    rw [List.cons_append, stripTrail_cons_nonspace (hw c (by simp)),
      ih (fun x hx => hw x (by simp [hx]))]
    rfl

theorem stripL_cons_space {c : Char} (h : pyIsSpace c = true) (u : List Char) :
    stripL (c :: u) = stripL u := by
  unfold stripL
  rw [List.dropWhile_cons_of_pos h]

theorem stripL_cons_nonspace {c : Char} (h : pyIsSpace c = false) (u : List Char) :
    stripL (c :: u) = c :: stripTrail u := by
  unfold stripL
  rw [List.dropWhile_cons_of_neg (by simp [h]), stripTrail_cons_nonspace h]

theorem stripTrail_single_space : stripTrail [' '] = [] := by decide

/-- The code's split-and-join normalization equals the spec's description
(collapse whitespace runs, then strip the ends), before lowercasing. -/
theorem joinSp_split_eq : ∀ l : List Char,
    joinSp (split l) = stripL (collapseRuns l) := by
  apply list_strong_ind
  intro l ih
  match l with
  | [] => rfl
  | c :: cs =>
    by_cases hc : pyIsSpace c
    · have hlen : (cs.dropWhile pyIsSpace).length < (c :: cs).length := by
        have := length_dropWhile_le pyIsSpace cs
        simp
        omega
      rw [cr_space_drop hc, stripL_cons_space pyIsSpace_space, ← ih _ hlen,
        split_dropWhile, split_cons_space hc]
    · have hc' : pyIsSpace c = false := by simp [hc]
      have hw : ∀ x ∈ cs.takeWhile (fun d => !pyIsSpace d), pyIsSpace x = false := by
        intro x hx
        have := List.mem_takeWhile_imp hx
        simpa using this
      have hsplit : cs.takeWhile (fun d => !pyIsSpace d) ++
          cs.dropWhile (fun d => !pyIsSpace d) = cs :=
        List.takeWhile_append_dropWhile _ cs
      have hcr : collapseRuns cs = cs.takeWhile (fun d => !pyIsSpace d) ++
          collapseRuns (cs.dropWhile (fun d => !pyIsSpace d)) := by
        conv_lhs => rw [← hsplit]
        exact cr_word_prefix hw _
      rw [split_cons_nonspace hc', cr_nonspace hc', stripL_cons_nonspace hc', hcr,
        stripTrail_word_prefix hw]
      cases hr : cs.dropWhile (fun d => !pyIsSpace d) with
      | nil =>
        rw [split_nil]
        have h0 : stripTrail (collapseRuns []) = [] := rfl
        rw [h0]
        show joinSp [c :: cs.takeWhile (fun d => !pyIsSpace d)] = _
        simp [joinSp]
      | cons d r' =>
        have hd : pyIsSpace d = true := by
          have := dropWhile_head_false hr
          simpa using this
        rw [cr_space_drop hd]
        cases hr₁ : r'.dropWhile pyIsSpace with
        | nil =>
          have hsr' : split r' = [] := by
            have h2 := split_dropWhile r'
            rw [hr₁] at h2
            exact h2.symm
          have h0 : stripTrail (' ' :: collapseRuns []) = [] := stripTrail_single_space
          rw [split_cons_space hd, hsr', h0]
          show joinSp [c :: cs.takeWhile (fun d => !pyIsSpace d)] = _
          simp [joinSp]
        | cons e t =>
          have he : pyIsSpace e = false := dropWhile_head_false hr₁
          have hsr : split r' = split (e :: t) := by
            have h2 := split_dropWhile r'
            rw [hr₁] at h2
            exact h2.symm
          have hlen₁ : (e :: t).length < (c :: cs).length := by
            have h3 : (e :: t).length ≤ r'.length := by
              rw [← hr₁]
              exact length_dropWhile_le pyIsSpace r'
            have h4 : (d :: r').length ≤ cs.length := by
              rw [← hr]
              exact length_dropWhile_le (fun x => !pyIsSpace x) cs
            simp at h3 h4 ⊢
            omega
          have hihr := ih _ hlen₁
          rw [split_cons_nonspace he, cr_nonspace he, stripL_cons_nonspace he] at hihr
          rw [cr_nonspace he]
          have hst : stripTrail (' ' :: e :: collapseRuns t) =
              ' ' :: e :: stripTrail (collapseRuns t) := by
            rw [stripTrail_cons, stripTrail_cons_nonspace he, if_neg (by simp)]
          rw [hst, split_cons_space hd, hsr, split_cons_nonspace he, joinSp_cons₂, hihr]
          rfl

/-! Stripping is idempotent. -/

theorem dropWhile_idem {α : Type} {p : α → Bool} (l : List α) :
    (l.dropWhile p).dropWhile p = l.dropWhile p := by
  cases h : l.dropWhile p with
  | nil => rfl
  | cons d t => rw [List.dropWhile_cons_of_neg (by simp [dropWhile_head_false h])]

theorem stripTrail_idem (l : List Char) : stripTrail (stripTrail l) = stripTrail l := by
  unfold stripTrail
  rw [List.reverse_reverse, dropWhile_idem]

theorem stripTrail_head_nonspace {c : Char} (h : pyIsSpace c = false) (u : List Char) :
    (c :: u).dropWhile pyIsSpace = c :: u :=
  List.dropWhile_cons_of_neg (by simp [h])

theorem stripL_idem (l : List Char) : stripL (stripL l) = stripL l := by
  have h1 : (stripL l).dropWhile pyIsSpace = stripL l := by
    unfold stripL
    cases h : l.dropWhile pyIsSpace with
    | nil => rfl
    | cons c u =>
      rw [stripTrail_cons_nonspace (dropWhile_head_false h)]
      exact stripTrail_head_nonspace (dropWhile_head_false h) _
  show stripTrail ((stripL l).dropWhile pyIsSpace) = stripL l
  rw [h1]
  unfold stripL
  rw [stripTrail_idem]

/-! String-level bridges. -/

theorem string_data_mk (l : List Char) : (String.mk l).data = l := rfl

theorem string_mk_inj {a b : List Char} (h : String.mk a = String.mk b) : a = b := by
  cases h
  rfl

theorem pyStrip_idem (s : String) : pyStrip (pyStrip s) = pyStrip s := by
  show String.mk (stripL (stripL s.data)) = String.mk (stripL s.data)
  rw [stripL_idem]

theorem normalize_pyStrip (s : String) : normalize (pyStrip s) = normalize s := by
  show String.mk (normalizeL (stripL s.data)) = String.mk (normalizeL s.data)
  rw [normalizeL_stripL]

theorem normalize_idem_str (s : String) : normalize (normalize s) = normalize s := by
  show String.mk (normalizeL (normalizeL s.data)) = String.mk (normalizeL s.data)
  rw [normalizeL_idem]

theorem normalize_eq_specNormalize (s : String) : normalize s = specNormalize s := by
  show String.mk (normalizeL s.data) = String.mk (specNormalizeL s.data)
  unfold normalizeL specNormalizeL
  rw [joinSp_split_eq]

theorem normalize_of_pyLower_eq {s₁ s₂ : String} (h : pyLower s₁ = pyLower s₂) :
    normalize s₁ = normalize s₂ := by
  show String.mk (normalizeL s₁.data) = String.mk (normalizeL s₂.data)
  rw [normalizeL_of_lowerL_eq (string_mk_inj h)]

theorem normalize_of_collapseRuns_eq {s₁ s₂ : String}
    (h : collapseRunsS s₁ = collapseRunsS s₂) : normalize s₁ = normalize s₂ := by
  show String.mk (normalizeL s₁.data) = String.mk (normalizeL s₂.data)
  have h2 : split s₁.data = split s₂.data := by
    rw [← split_collapseRuns s₁.data, ← split_collapseRuns s₂.data,
      string_mk_inj h]
  unfold normalizeL
  rw [h2]

/-! Facts about `existsNorm`, `classify` and `insert_unique`. -/

theorem existsNorm_iff (db : DB) (vn : String) :
    existsNorm db vn = true ↔ ∃ e ∈ db.rows, e.value_norm = vn := by
  simp [existsNorm]

theorem existsNorm_false_iff (db : DB) (vn : String) :
    existsNorm db vn = false ↔ ∀ e ∈ db.rows, e.value_norm ≠ vn := by
  simp [existsNorm]

theorem classify_none (db : DB) : classify db none = "false_positive" := rfl

theorem classify_empty {db : DB} {s : String} (h : pyStrip s = "") :
    classify db (some s) = "false_positive" := by
  simp [classify, h]

theorem classify_found {db : DB} {s : String} (h : pyStrip s ≠ "")
    (h2 : existsNorm db (normalize (pyStrip s)) = true) :
    classify db (some s) = "redundant" := by
  simp [classify, h, h2]

theorem classify_notfound {db : DB} {s : String} (h : pyStrip s ≠ "")
    (h2 : existsNorm db (normalize (pyStrip s)) = false) :
    classify db (some s) = "unique" := by
  simp [classify, h, h2]

theorem classify_cases (db : DB) (raw : Option String) :
    classify db raw = "false_positive" ∨ classify db raw = "redundant" ∨
      classify db raw = "unique" := by
  match raw with
  | none => exact Or.inl rfl
  | some s =>
    by_cases h : pyStrip s = ""
    · exact Or.inl (classify_empty h)
    · by_cases h2 : existsNorm db (normalize (pyStrip s)) = true
      · exact Or.inr (Or.inl (classify_found h h2))
      · exact Or.inr (Or.inr (classify_notfound h (by simpa using h2)))

theorem insert_unique_at_fp {dbCheck dbIns : DB} {raw : Option String} {now : String}
    (h : classify dbCheck raw = "false_positive") :
    insert_unique_at dbCheck dbIns raw now = (dbIns, Msg.falsePositive) := by
  unfold insert_unique_at
  rw [if_pos h]

theorem insert_unique_at_red {dbCheck dbIns : DB} {raw : Option String} {now : String}
    (h : classify dbCheck raw = "redundant") :
    insert_unique_at dbCheck dbIns raw now = (dbIns, Msg.redundant raw) := by
  unfold insert_unique_at
  rw [if_neg (by rw [h]; decide), if_pos h]

theorem insert_unique_at_conflict {dbCheck dbIns : DB} {s now : String}
    (h : classify dbCheck (some s) = "unique")
    (h2 : existsNorm dbIns (normalize (pyStrip s)) = true) :
    insert_unique_at dbCheck dbIns (some s) now = (dbIns, Msg.redundant (some s)) := by
  unfold insert_unique_at
  rw [if_neg (by rw [h]; decide), if_neg (by rw [h]; decide)]
  show (match sqlInsert dbIns (pyStrip s) (normalize (pyStrip s)) now with
    | some db2 => (db2, Msg.inserted (pyStrip s))
    | none => (dbIns, Msg.redundant (some s))) = (dbIns, Msg.redundant (some s))
  unfold sqlInsert
  rw [if_pos h2]

theorem insert_unique_at_success {dbCheck dbIns : DB} {s now : String}
    (h : classify dbCheck (some s) = "unique")
    (h2 : existsNorm dbIns (normalize (pyStrip s)) = false) :
    insert_unique_at dbCheck dbIns (some s) now =
      (⟨dbIns.nextId + 1,
        dbIns.rows ++ [⟨dbIns.nextId, pyStrip s, normalize (pyStrip s), now⟩]⟩,
       Msg.inserted (pyStrip s)) := by
  unfold insert_unique_at
  rw [if_neg (by rw [h]; decide), if_neg (by rw [h]; decide)]
  show (match sqlInsert dbIns (pyStrip s) (normalize (pyStrip s)) now with
    | some db2 => (db2, Msg.inserted (pyStrip s))
    | none => (dbIns, Msg.redundant (some s))) = _
  unfold sqlInsert
  rw [if_neg (by rw [h2]; decide)]

theorem insert_unique_success {db : DB} {s now : String}
    (h : classify db (some s) = "unique") :
    insert_unique db (some s) now =
      (⟨db.nextId + 1,
        db.rows ++ [⟨db.nextId, pyStrip s, normalize (pyStrip s), now⟩]⟩,
       Msg.inserted (pyStrip s)) := by
  have h2 : existsNorm db (normalize (pyStrip s)) = false := by
    by_cases hs : pyStrip s = ""
    · rw [classify_empty hs] at h
      exact absurd h (by decide)
    · by_cases h3 : existsNorm db (normalize (pyStrip s)) = true
      · rw [classify_found hs h3] at h
        exact absurd h (by decide)
      · simpa using h3
  exact insert_unique_at_success h h2

/-- Whatever the classification, `insert_unique` either leaves the store
untouched or appends exactly the stripped-and-normalized row. -/
theorem insert_unique_fst_cases (db : DB) (raw : Option String) (now : String) :
    (insert_unique db raw now).1 = db ∨
    ∃ s, raw = some s ∧ classify db (some s) = "unique" ∧
      (insert_unique db raw now).1 =
        ⟨db.nextId + 1,
          db.rows ++ [⟨db.nextId, pyStrip s, normalize (pyStrip s), now⟩]⟩ := by
  rcases classify_cases db raw with h | h | h
  · rw [show insert_unique db raw now = (db, Msg.falsePositive) from insert_unique_at_fp h]
    exact Or.inl rfl
  · rw [show insert_unique db raw now = (db, Msg.redundant raw) from insert_unique_at_red h]
    exact Or.inl rfl
  · match raw with
    | none => exact absurd h (by rw [classify_none]; decide)
    | some s =>
      refine Or.inr ⟨s, rfl, h, ?_⟩
      rw [insert_unique_success h]

/-! The well-formedness invariant holds in every reachable state. -/

theorem classify_unique_not_exists {db : DB} {s : String}
    (h : classify db (some s) = "unique") :
    existsNorm db (normalize (pyStrip s)) = false := by
  by_cases hs : pyStrip s = ""
  · rw [classify_empty hs] at h
    exact absurd h (by decide)
  · by_cases h3 : existsNorm db (normalize (pyStrip s)) = true
    · rw [classify_found hs h3] at h
      exact absurd h (by decide)
    · simpa using h3

theorem wf_empty : WF emptyDB := by
  refine ⟨by simp [emptyDB], by simp [emptyDB], ?_, ?_⟩ <;> simp [emptyDB]

theorem wf_insert {db : DB} (hwf : WF db) (raw : Option String) (now : String) :
    WF (insert_unique db raw now).1 := by
  rcases insert_unique_fst_cases db raw now with h | ⟨s, hraw, hcl, h⟩
  · rw [h]
    exact hwf
  · rw [h]
    obtain ⟨hnd, hch, hid, hrel⟩ := hwf
    have hex := classify_unique_not_exists hcl
    have hnotin : normalize (pyStrip s) ∉ db.rows.map Entry.value_norm := by
      intro hmem
      obtain ⟨e, he, hev⟩ := List.mem_map.1 hmem
      exact (existsNorm_false_iff db _).1 hex e he hev
    refine ⟨?_, ?_, ?_, ?_⟩
    · rw [List.map_append]
      exact hnd.append (by simp) (by simpa using hnotin)
    · rw [List.map_append, List.chain'_append]
      refine ⟨hch, by simp, ?_⟩
      intro x hx y hy
      simp only [List.map_cons, List.map_nil, List.head?_cons, Option.mem_some_iff] at hy
      subst hy
      have hx2 : x ∈ db.rows.map Entry.id := List.mem_of_mem_getLast? hx
      obtain ⟨e, he, hev⟩ := List.mem_map.1 hx2
      subst hev
      exact hid e he
    · intro e he
      rcases List.mem_append.1 he with h1 | h1
      · have := hid e h1
        simp
        omega
      · simp at h1
        subst h1
        simp
    · intro e he
      rcases List.mem_append.1 he with h1 | h1
      · exact hrel e h1
      · simp at h1
        subst h1
        exact ⟨by rw [normalize_pyStrip], pyStrip_idem s⟩

theorem reachable_wf : ∀ db : DB, Reachable db → WF db := by
  intro db h
  induction h with
  | empty => exact wf_empty
  | insert db raw now _ ih => exact wf_insert ih raw now
  | reset db _ _ => exact wf_empty
  | reinit db _ ih => exact ih

/-! The claims. -/

/-- C1: in every reachable store state no two rows share a `value_norm`
(the UNIQUE column invariant), and `insert_unique` refuses to add a row
whose normalized key already exists (the store is returned unchanged). -/
theorem claim1_value_norm_unique (db : DB) (h : Reachable db) :
    (db.rows.map Entry.value_norm).Nodup ∧
    (∀ s now, existsNorm db (normalize (pyStrip s)) = true →
      (insert_unique db (some s) now).1 = db) := by
  refine ⟨(reachable_wf db h).1, ?_⟩
  intro s now hex
  by_cases hs : pyStrip s = ""
  · rw [show insert_unique db (some s) now = (db, Msg.falsePositive) from
      insert_unique_at_fp (classify_empty hs)]
  · rw [show insert_unique db (some s) now = (db, Msg.redundant (some s)) from
      insert_unique_at_red (classify_found hs hex)]

theorem claim1_witness :
    ((emptyDB).rows.map Entry.value_norm).Nodup ∧
    (∀ s now, existsNorm emptyDB (normalize (pyStrip s)) = true →
      (insert_unique emptyDB (some s) now).1 = emptyDB) :=
  claim1_value_norm_unique emptyDB Reachable.empty

/-- C2: `classify` returns the invalid verdict (`"false_positive"`) exactly
when the input is absent or blank after trimming; otherwise it returns the
duplicate verdict (`"redundant"`) exactly when the input's normalized key is
stored, and the novel verdict (`"unique"`) otherwise.  It is read-only by
construction: `classify` is a function returning only a string. -/
theorem claim2_classify_characterization (db : DB) (raw : Option String) :
    (classify db raw = "false_positive" ↔
      raw = none ∨ ∃ s, raw = some s ∧ pyStrip s = "") ∧
    (classify db raw = "redundant" ↔
      ∃ s, raw = some s ∧ pyStrip s ≠ "" ∧ existsNorm db (normalize s) = true) ∧
    (classify db raw = "unique" ↔
      ∃ s, raw = some s ∧ pyStrip s ≠ "" ∧ existsNorm db (normalize s) = false) := by
  match raw with
  | none =>
    refine ⟨?_, ?_, ?_⟩ <;> simp [classify_none]
  | some s =>
    have hkey : normalize (pyStrip s) = normalize s := normalize_pyStrip s
    by_cases hs : pyStrip s = ""
    · rw [classify_empty hs]
      refine ⟨?_, ?_, ?_⟩ <;> simp [hs]
    · by_cases hex : existsNorm db (normalize (pyStrip s)) = true
      · rw [classify_found hs hex]
        rw [hkey] at hex
        refine ⟨?_, ?_, ?_⟩ <;> simp [hs, hex]
      · have hex' : existsNorm db (normalize (pyStrip s)) = false := by simpa using hex
        rw [classify_notfound hs hex']
        rw [hkey] at hex'
        refine ⟨?_, ?_, ?_⟩ <;> simp [hs, hex']

/-- C3: invalid and duplicate outcomes leave the store unchanged, and
inserting the same normalized value twice succeeds the first time while the
second attempt is reported redundant with the store (hence the row count)
unchanged. -/
theorem claim3_error_atomicity :
    (∀ (db : DB) (raw : Option String) (now : String),
      classify db raw = "false_positive" ∨ classify db raw = "redundant" →
      (insert_unique db raw now).1 = db) ∧
    (∀ (db : DB) (s now s₂ now₂ : String),
      classify db (some s) = "unique" → normalize s₂ = normalize s →
      pyStrip s₂ ≠ "" →
      (insert_unique db (some s) now).2 = Msg.inserted (pyStrip s) ∧
      (insert_unique db (some s) now).1.rows.length = db.rows.length + 1 ∧
      insert_unique (insert_unique db (some s) now).1 (some s₂) now₂ =
        ((insert_unique db (some s) now).1, Msg.redundant (some s₂))) := by
  constructor
  · intro db raw now h
    rcases h with h | h
    · rw [show insert_unique db raw now = (db, Msg.falsePositive) from
        insert_unique_at_fp h]
    · rw [show insert_unique db raw now = (db, Msg.redundant raw) from
        insert_unique_at_red h]
  · intro db s now s₂ now₂ hcl hnorm hs₂
    have hres := @insert_unique_success db s now hcl
    have hkey : normalize (pyStrip s₂) = normalize (pyStrip s) := by
      rw [normalize_pyStrip, normalize_pyStrip, hnorm]
    have hex : existsNorm (insert_unique db (some s) now).1
        (normalize (pyStrip s₂)) = true := by
      rw [hres]
      refine (existsNorm_iff _ _).2
        ⟨⟨db.nextId, pyStrip s, normalize (pyStrip s), now⟩, by simp, hkey.symm⟩
    refine ⟨by rw [hres], by rw [hres]; simp, ?_⟩
    exact insert_unique_at_red (classify_found hs₂ hex)

theorem claim3_witness :
    (insert_unique emptyDB (some ("   ")) ("t0")).1 = emptyDB ∧
    (insert_unique emptyDB (some ("Hello World")) ("t1")).2 =
      Msg.inserted (pyStrip ("Hello World")) ∧
    (insert_unique emptyDB (some ("Hello World")) ("t1")).1.rows.length =
      emptyDB.rows.length + 1 ∧
    insert_unique (insert_unique emptyDB (some ("Hello World")) ("t1")).1
        (some ("  hello   world ")) ("t2") =
      ((insert_unique emptyDB (some ("Hello World")) ("t1")).1,
       Msg.redundant (some ("  hello   world "))) :=
  ⟨claim3_error_atomicity.1 emptyDB (some ("   ")) ("t0") (Or.inl (by decide)),
   (claim3_error_atomicity.2 emptyDB ("Hello World") ("t1") ("  hello   world ")
     ("t2") (by decide) (by decide) (by decide)).1,
   (claim3_error_atomicity.2 emptyDB ("Hello World") ("t1") ("  hello   world ")
     ("t2") (by decide) (by decide) (by decide)).2.1,
   (claim3_error_atomicity.2 emptyDB ("Hello World") ("t1") ("  hello   world ")
     ("t2") (by decide) (by decide) (by decide)).2.2⟩

/-- C4: when the existence check saw no duplicate but the INSERT hits the
UNIQUE constraint (an external writer won the race), the operation returns
normally with the store it was given and the very same ignored-redundant
message that a pre-detected duplicate produces. -/
theorem claim4_conflict_is_duplicate (dbCheck dbIns db₀ : DB) (s now now₀ : String)
    (h : classify dbCheck (some s) = "unique")
    (h2 : existsNorm dbIns (normalize (pyStrip s)) = true)
    (h3 : classify db₀ (some s) = "redundant") :
    insert_unique_at dbCheck dbIns (some s) now = (dbIns, Msg.redundant (some s)) ∧
    (insert_unique_at dbCheck dbIns (some s) now).2 =
      (insert_unique db₀ (some s) now₀).2 := by
  have hconf := @insert_unique_at_conflict dbCheck dbIns s now h h2
  refine ⟨hconf, ?_⟩
  rw [hconf, show insert_unique db₀ (some s) now₀ = (db₀, Msg.redundant (some s)) from
    insert_unique_at_red h3]

theorem claim4_witness :
    insert_unique_at emptyDB (insert_unique emptyDB (some ("a")) ("t0")).1
        (some ("a")) ("t1") =
      ((insert_unique emptyDB (some ("a")) ("t0")).1, Msg.redundant (some ("a"))) ∧
    (insert_unique_at emptyDB (insert_unique emptyDB (some ("a")) ("t0")).1
        (some ("a")) ("t1")).2 =
      (insert_unique (insert_unique emptyDB (some ("a")) ("t0")).1
        (some ("a")) ("t2")).2 :=
  claim4_conflict_is_duplicate emptyDB (insert_unique emptyDB (some ("a")) ("t0")).1
    (insert_unique emptyDB (some ("a")) ("t0")).1 ("a") ("t1") ("t2")
    (by decide) (by decide) (by decide)

/-- C5 (counterexample): at end of input the loop does not terminate
normally — `input()` raises an uncaught `EOFError`, so the claim that end of
input yields a normal exit-code-0 termination is false. -/
theorem claim5_counterexample :
    ¬ ((runLoop ([]) ([]) emptyDB).2 = ExitStatus.normalExit) := by
  decide

/-- C5 (amended): an `exit` line terminates the loop normally (exit code 0
after `conn.close()`), but if the input ends without an `exit` line the loop
ends in an uncaught `EOFError` (abnormal termination, nonzero exit code). -/
theorem claim5_exit_behaviour :
    (∀ (line : String) (rest nows : List String) (db : DB),
      pyLower (pyStrip line) = "exit" →
      runLoop (line :: rest) nows db = (db, ExitStatus.normalExit)) ∧
    (∀ (inputs nows : List String) (db : DB),
      (∀ l ∈ inputs, pyLower (pyStrip l) ≠ "exit") →
      (runLoop inputs nows db).2 = ExitStatus.eofCrash) := by
  constructor
  · intro line rest nows db h
    show (if pyLower (pyStrip line) = "exit" then (db, ExitStatus.normalExit)
      else if pyLower (pyStrip line) = "show" then runLoop rest nows db
      else if pyLower (pyStrip line) = "reset" then runLoop rest nows (init_db db true)
      else runLoop rest nows.tail
        (insert_unique db (some (pyStrip line)) (nows.headD "")).1) =
      (db, ExitStatus.normalExit)
    rw [if_pos h]
  · intro inputs
    induction inputs with
    | nil => intro nows db _; rfl
    | cons line rest ih =>
      intro nows db h
      have h1 : pyLower (pyStrip line) ≠ "exit" := h line (by simp)
      have hrest : ∀ l ∈ rest, pyLower (pyStrip l) ≠ "exit" :=
        fun l hl => h l (by simp [hl])
      show (if pyLower (pyStrip line) = "exit" then (db, ExitStatus.normalExit)
        else if pyLower (pyStrip line) = "show" then runLoop rest nows db
        else if pyLower (pyStrip line) = "reset" then runLoop rest nows (init_db db true)
        else runLoop rest nows.tail
          (insert_unique db (some (pyStrip line)) (nows.headD "")).1).2 =
        ExitStatus.eofCrash
      rw [if_neg h1]
      by_cases h2 : pyLower (pyStrip line) = "show"
      · rw [if_pos h2]
        exact ih nows db hrest
      · rw [if_neg h2]
        by_cases h3 : pyLower (pyStrip line) = "reset"
        · rw [if_pos h3]
          exact ih nows (init_db db true) hrest
        · rw [if_neg h3]
          exact ih nows.tail _ hrest

theorem claim5_witness :
    runLoop (("exit") :: []) ([]) emptyDB = (emptyDB, ExitStatus.normalExit) ∧
    (runLoop (("a") :: []) ([]) emptyDB).2 = ExitStatus.eofCrash :=
  ⟨claim5_exit_behaviour.1 ("exit") [] [] emptyDB (by decide),
   claim5_exit_behaviour.2 (("a") :: []) [] emptyDB (by decide)⟩

/-- C6: `normalize` computes exactly the spec's collapse-whitespace-runs,
strip, lowercase transformation; strings that agree after lowercasing
normalize identically, and strings that agree after collapsing whitespace
runs (differing only in run lengths) normalize identically.  Totality is by
construction: `normalize` is a function on all of `String`. -/
theorem claim6_normalize_spec :
    (∀ s : String, normalize s = specNormalize s) ∧
    (∀ s₁ s₂ : String, pyLower s₁ = pyLower s₂ → normalize s₁ = normalize s₂) ∧
    (∀ s₁ s₂ : String, collapseRunsS s₁ = collapseRunsS s₂ →
      normalize s₁ = normalize s₂) :=
  ⟨normalize_eq_specNormalize,
   fun _ _ h => normalize_of_pyLower_eq h,
   fun _ _ h => normalize_of_collapseRuns_eq h⟩

theorem claim6_witness :
    normalize ("  A  b ") = specNormalize ("  A  b ") ∧
    (normalize ("Hello World") = normalize ("HELLO world") ∧
      normalize ("a   b") = normalize ("a b")) :=
  ⟨claim6_normalize_spec.1 ("  A  b "),
   claim6_normalize_spec.2.1 ("Hello World") ("HELLO world") (by decide),
   claim6_normalize_spec.2.2 ("a   b") ("a b") (by decide)⟩

/-- C7: `normalize` is idempotent on every string. -/
theorem claim7_normalize_idempotent (s : String) :
    normalize (normalize s) = normalize s :=
  normalize_idem_str s

/-- C8: `init_db` with `reset=True` (the `reset` command) recreates the
empty table, so the `show` that follows prints the empty-state notice and
the listing has no entries. -/
theorem claim8_reset_then_show (db : DB) :
    init_db db true = emptyDB ∧
    show_data (init_db db true) = ShowMsg.emptyNotice ∧
    (init_db db true).rows = [] :=
  ⟨rfl, rfl, rfl⟩

/-- C9: `show_data` prints the explicit empty notice on an empty table, and
otherwise lists every stored row as an `(id, value, created_at)` triple in
strictly ascending `id` order. -/
theorem claim9_show_data (db : DB) (h : Reachable db) :
    (db.rows = [] → show_data db = ShowMsg.emptyNotice) ∧
    (db.rows ≠ [] →
      show_data db = ShowMsg.entries
        (db.rows.map (fun e => (e.id, e.value, e.created_at))) ∧
      List.Chain' (fun a b => a < b)
        ((db.rows.map (fun e => (e.id, e.value, e.created_at))).map
          (fun r => r.1))) := by
  constructor
  · intro h0
    unfold show_data
    rw [h0]
    rfl
  · intro h0
    constructor
    · unfold show_data
      cases hr2 : db.rows.map (fun e => (e.id, e.value, e.created_at)) with
      | nil => exact absurd (List.map_eq_nil_iff.1 hr2) h0
      | cons x xs => rfl
    · rw [List.map_map]
      exact (reachable_wf db h).2.1

theorem claim9_witness :
    show_data emptyDB = ShowMsg.emptyNotice ∧
    (show_data (insert_unique emptyDB (some ("a")) ("t")).1 =
      ShowMsg.entries ((insert_unique emptyDB (some ("a")) ("t")).1.rows.map
        (fun e => (e.id, e.value, e.created_at))) ∧
      List.Chain' (fun a b => a < b)
        (((insert_unique emptyDB (some ("a")) ("t")).1.rows.map
          (fun e => (e.id, e.value, e.created_at))).map (fun r => r.1))) :=
  ⟨(claim9_show_data emptyDB Reachable.empty).1 rfl,
   (claim9_show_data _ (Reachable.insert emptyDB (some ("a")) ("t")
     Reachable.empty)).2 (by decide)⟩

/-- C10: in every reachable state each stored row satisfies
`value_norm = normalize value`, and `value` itself is stripped of leading
and trailing whitespace (interior whitespace and case are stored as
entered). -/
theorem claim10_stored_columns (db : DB) (h : Reachable db) :
    ∀ e ∈ db.rows, e.value_norm = normalize e.value ∧ pyStrip e.value = e.value :=
  (reachable_wf db h).2.2.2

theorem claim10_witness :
    (Entry.mk 1 ("A  b") ("a b") ("t")).value_norm =
      normalize (Entry.mk 1 ("A  b") ("a b") ("t")).value ∧
    pyStrip (Entry.mk 1 ("A  b") ("a b") ("t")).value =
      (Entry.mk 1 ("A  b") ("a b") ("t")).value :=
  claim10_stored_columns _
    (Reachable.insert emptyDB (some (" A  b ")) ("t") Reachable.empty)
    _ (by decide)

end DRRS
